import Mathlib

/-!
Verification of the extraction / repair / normalization / compile-classification /
retry-loop core of the Pony LLM code-synthesis harness
(`src/evaluation/evaluator.py`), via a shallow embedding over `List Char`.

Python strings are modelled as `List Char`; each regex substitution of
`clean_pony_code` is modelled by a character-level scan that reproduces the
leftmost, non-overlapping matching discipline of `re.sub` / `re.findall` for
the concrete patterns appearing in the source (all of whose components are
forced runs over disjoint character classes, so backtracking is determinate).
Scans whose resume position jumps over a match use an explicit fuel argument
(initialised to the string length, and decreasing by one on every step while
each step consumes at least one character, so the fuel never runs out); this
keeps every definition structurally recursive and kernel-computable.
-/

namespace PonyEval

abbrev Str := List Char

/-- Python `pat in s`: `pat` occurs as a contiguous substring of `s`. -/
def containsSub (p : Str) : Str → Bool
  | [] => p.isEmpty
  | c :: rest => p.isPrefixOf (c :: rest) || containsSub p rest

/-- Python whitespace class (`\s` and `str.strip` default, ASCII range). -/
def isPSpace (c : Char) : Bool :=
  c = ' ' || c = '\t' || c = '\n' || c = '\r' || c = '\x0b' || c = '\x0c'

/-- Python word-character class `\w` (ASCII range). -/
def isWordChar (c : Char) : Bool := c.isAlphanum || c = '_'

/-- Python `str.strip()`. -/
def pyStrip (s : Str) : Str :=
  ((s.dropWhile isPSpace).reverse.dropWhile isPSpace).reverse

/-- Python `str.split('\n')`. -/
def pySplitNL : Str → List Str
  | [] => [[]]
  | c :: rest =>
    match pySplitNL rest with
    | [] => [[]]
    | l :: ls => if c = '\n' then [] :: l :: ls else (c :: l) :: ls

/-- Python `'\n'.join(ls)`. -/
def joinNL : List Str → Str
  | [] => []
  | [l] => l
  | l :: l2 :: ls => l ++ '\n' :: joinNL (l2 :: ls)

/-- Python `s.split(p, 1)`: split at the first occurrence of `p`, if any. -/
def splitFirst (p : Str) : Str → Option (Str × Str)
  | [] => if p.isEmpty then some ([], []) else none
  | c :: rest =>
    if p.isPrefixOf (c :: rest) then some ([], (c :: rest).drop p.length)
    else
      match splitFirst p rest with
      | some (b, a) => some (c :: b, a)
      | none => none

/-- Python `str.lower()` (ASCII). -/
def pyLower (s : Str) : Str := s.map Char.toLower

/-! ## clean_pony_code (evaluator.py lines 231-252) -/

/-- A `\b` boundary between a word character and the rest of the string:
the next character is absent or a non-word character. -/
def boundaryOK : Str → Bool
  | [] => true
  | d :: _ => !(isWordChar d)

/-- `re.sub(r'(\d+)[Uu]\b', r'\1', code)`: delete every `U`/`u` that directly
follows a digit and is itself followed by a word boundary. -/
def stripU : Str → Str
  | [] => []
  | [c] => [c]
  | c :: u :: rest2 =>
    if c.isDigit && (u = 'U' || u = 'u') && boundaryOK rest2 then c :: stripU rest2
    else c :: stripU (u :: rest2)

/-- A digit directly followed by `U` or `u` occurs somewhere in the string
(the trigger condition for the numeric-suffix substitution). -/
def hasDigitU : Str → Bool
  | [] => false
  | [_] => false
  | a :: b :: r => (a.isDigit && (b = 'U' || b = 'u')) || hasDigitU (b :: r)

def pkgLit : Str := ("package").data

/-- The suffix after the last `'\n'` of `l` (all of `l` when there is none). -/
def afterLastNL (l : Str) : Str :=
  (l.reverse.takeWhile (fun c => !(c = '\n'))).reverse

/-- Match `package\s+\w+\s*\n` at the head of `s` (a line start); on success
return the rest of the string after the match.  Each component is a forced
maximal run (the character classes are disjoint), and `\s*\n` ends at the
last newline of the trailing whitespace run. -/
def matchPackage (s : Str) : Option Str :=
  if pkgLit.isPrefixOf s then
    let t := s.drop 7
    let w1 := t.takeWhile isPSpace
    if w1.isEmpty then none
    else
      let t1 := t.dropWhile isPSpace
      let w2 := t1.takeWhile isWordChar
      if w2.isEmpty then none
      else
        let t2 := t1.dropWhile isWordChar
        let w3 := t2.takeWhile isPSpace
        if w3.contains '\n' then some (afterLastNL w3 ++ t2.dropWhile isPSpace)
        else none
  else none

/-- `re.sub(r'^package\s+\w+\s*\n', '', code, flags=re.MULTILINE)`, fueled scan.
The boolean argument records whether the current position is a line start. -/
def subPkgF : Nat → Bool → Str → Str
  | 0, _, s => s
  | _+1, _, [] => []
  | f+1, atLS, c :: rest =>
    if atLS then
      match matchPackage (c :: rest) with
      | some r => subPkgF f true r
      | none => c :: subPkgF f (c = '\n') rest
    else c :: subPkgF f (c = '\n') rest

def subPkg (s : Str) : Str := subPkgF s.length true s

def valuesLit : Str := (".values()").data

/-- `re.sub(r'\[([^\]]+)\]\.values\(\)', r'[\1]', code)`, fueled scan.
(The head of a nonempty `dropWhile (· ≠ ']')` result is necessarily `']'`;
the explicit `d = ']'` conjunct keeps the definition faithful to the
pattern's required closing bracket.) -/
def subValuesF : Nat → Str → Str
  | 0, s => s
  | _+1, [] => []
  | f+1, c :: rest =>
    if c = '[' then
      match rest.dropWhile (fun d => !(d = ']')) with
      | d :: t2 =>
        if d = ']' ∧ (rest.takeWhile (fun d2 => !(d2 = ']'))).isEmpty = false
            ∧ valuesLit.isPrefixOf t2 = true then
          '[' :: rest.takeWhile (fun d2 => !(d2 = ']')) ++ ']' :: subValuesF f (t2.drop 9)
        else c :: subValuesF f rest
      | [] => c :: subValuesF f rest
    else c :: subValuesF f rest

def subValues (s : Str) : Str := subValuesF s.length s

def eqLit : Str := ("==").data

/-- Match `\w+\s*==\s*\w+` at the head of `s`; return the matched text and
the rest.  All runs are forced maximal (disjoint character classes). -/
def tryEq (s : Str) : Option (Str × Str) :=
  let w1 := s.takeWhile isWordChar
  if w1.isEmpty then none
  else
    let s1 := s.dropWhile isWordChar
    let sp1 := s1.takeWhile isPSpace
    let s2 := s1.dropWhile isPSpace
    if eqLit.isPrefixOf s2 then
      let s3 := s2.drop 2
      let sp2 := s3.takeWhile isPSpace
      let s4 := s3.dropWhile isPSpace
      let w2 := s4.takeWhile isWordChar
      if w2.isEmpty then none
      else some (w1 ++ sp1 ++ eqLit ++ sp2 ++ w2, s4.dropWhile isWordChar)
    else none

/-- Match the alternation `(or|and)` at the head of `s` (first alternative
first; the two cannot both apply since they start with different letters). -/
def tryOp (s : Str) : Option (Str × Str) :=
  if ("or").data.isPrefixOf s then some (("or").data, s.drop 2)
  else if ("and").data.isPrefixOf s then some (("and").data, s.drop 3)
  else none

/-- Match `(\w+\s*==\s*\w+)\s+(or|and)\s+(\w+\s*==\s*\w+)` at the head of `s`
(the caller has already checked the leading `\b`); on success return the
replacement text `(\1) \2 (\3)` and the rest of the string. -/
def tryCmp (s : Str) : Option (Str × Str) :=
  match tryEq s with
  | none => none
  | some (g1, r1) =>
    if (r1.takeWhile isPSpace).isEmpty then none
    else
      match tryOp (r1.dropWhile isPSpace) with
      | none => none
      | some (op, r3) =>
        if (r3.takeWhile isPSpace).isEmpty then none
        else
          match tryEq (r3.dropWhile isPSpace) with
          | none => none
          | some (g3, r4) =>
            some ('(' :: g1 ++ (") ").data ++ op ++ (" (").data ++ g3 ++ [')'], r4)

/-- `re.sub(r'\b(\w+\s*==\s*\w+)\s+(or|and)\s+(\w+\s*==\s*\w+)', r'(\1) \2 (\3)', code)`,
fueled scan.  The boolean argument records whether the previous character is
absent or a non-word character (i.e. whether `\b` holds before a word char). -/
def subCmpF : Nat → Bool → Str → Str
  | 0, _, s => s
  | _+1, _, [] => []
  | f+1, bdry, c :: rest =>
    if bdry && isWordChar c then
      match tryCmp (c :: rest) with
      | some (repl, r) => repl ++ subCmpF f false r
      | none => c :: subCmpF f (!(isWordChar c)) rest
    else c :: subCmpF f (!(isWordChar c)) rest

def subCmp (s : Str) : Str := subCmpF s.length true s

def thenLit : Str := ("then").data

/-- Find the LAST occurrence of `\bthen\b` in `s` before the next newline
(the greedy `.*` of `\bif\b.*\bthen\b` backtracks to the last `then` of the
line); return the rest of the string after it.  `prevW` records whether the
previous character is a word character. -/
def findThen : Bool → Str → Option Str
  | _, [] => none
  | prevW, c :: rest =>
    if c = '\n' then none
    else
      match findThen (isWordChar c) rest with
      | some r => some r
      | none =>
        if !prevW && thenLit.isPrefixOf (c :: rest)
            && boundaryOK ((c :: rest).drop 4) then
          some ((c :: rest).drop 4)
        else none

def ifLit : Str := ("if").data

/-- `len(re.findall(r'\bif\b.*\bthen\b', code))`, fueled scan. -/
def countIfF : Nat → Bool → Str → Nat
  | 0, _, _ => 0
  | _+1, _, [] => 0
  | f+1, bdry, c :: rest =>
    if bdry && ifLit.isPrefixOf (c :: rest) && boundaryOK ((c :: rest).drop 2) then
      match findThen true ((c :: rest).drop 2) with
      | some r => 1 + countIfF f false r
      | none => countIfF f (!(isWordChar c)) rest
    else countIfF f (!(isWordChar c)) rest

def countIfThen (s : Str) : Nat := countIfF s.length true s

def endLit : Str := ("end").data

/-- `len(re.findall(r'\bend\b', code))`, fueled scan. -/
def countEndF : Nat → Bool → Str → Nat
  | 0, _, _ => 0
  | _+1, _, [] => 0
  | f+1, bdry, c :: rest =>
    if bdry && endLit.isPrefixOf (c :: rest) && boundaryOK ((c :: rest).drop 3) then
      1 + countEndF f false ((c :: rest).drop 3)
    else countEndF f (!(isWordChar c)) rest

def countEnd (s : Str) : Nat := countEndF s.length true s

/-- The `while end_count < if_count: code += '\n    end'` loop: append one
`'\n    end'` per missing terminator. -/
def balanceEnds (s : Str) : Str :=
  s ++ (List.replicate (countIfThen s - countEnd s) (("\n    end").data)).flatten

/-- `clean_pony_code` (evaluator.py lines 231-252): the five substitutions in
source order, then `str.strip()`. -/
def clean_pony_code (s : Str) : Str :=
  pyStrip (balanceEnds (subCmp (subValues (subPkg (stripU s)))))

/-! ## extract_code_from_response (evaluator.py lines 190-229) -/

def openPony : Str := ("```pony\n").data
def openGeneric : Str := ("```\n").data
def closeTag : Str := ("\n```").data

/-- `re.findall(tag-opener + r"(.*?)\n```", response, re.DOTALL)`: collect the
contents of all non-overlapping lazily-matched fenced blocks, fueled scan. -/
def findBlocksF (tag : Str) : Nat → Str → List Str
  | 0, _ => []
  | _+1, [] => []
  | f+1, c :: rest =>
    if tag.isPrefixOf (c :: rest) then
      match splitFirst closeTag ((c :: rest).drop tag.length) with
      | some (content, after) => content :: findBlocksF tag f after
      | none => findBlocksF tag f rest
    else findBlocksF tag f rest

def findBlocks (tag : Str) (s : Str) : List Str := findBlocksF tag s.length s

def kwListG : List Str :=
  [("actor").data, ("class").data, ("primitive").data, ("fun").data, ("be").data]
def kwListL : List Str :=
  [("actor").data, ("class").data, ("primitive").data, ("fun").data]
def skipMarkers : List Str :=
  [("here").data, ("example").data, ("explanation").data, ("###").data, ("how to").data]

/-- `for match in reversed(matches): if any(keyword in match ...)`: the list is
passed already reversed. -/
def revFindKw : List Str → Option Str
  | [] => none
  | m :: ms => if kwListG.any (fun k => containsSub k m) then some m else revFindKw ms

/-- The line-level heuristic loop of `extract_code_from_response`:
skip explanatory lines, start capturing at the first keyword line. -/
def collectLines : Bool → List Str → List Str
  | _, [] => []
  | started, l :: ls =>
    if skipMarkers.any (fun m => containsSub m (pyLower l)) then collectLines started ls
    else
      if started || kwListL.any (fun k => containsSub k l) then
        l :: collectLines (started || kwListL.any (fun k => containsSub k l)) ls
      else collectLines (started || kwListL.any (fun k => containsSub k l)) ls

/-- `extract_code_from_response` (evaluator.py lines 190-229). -/
def extract_code_from_response (r : Str) : Str :=
  match findBlocks openPony r with
  | b :: bs => pyStrip ((b :: bs).getLastD [])
  | [] =>
    match findBlocks openGeneric r with
    | b :: bs =>
      match revFindKw (b :: bs).reverse with
      | some m => pyStrip m
      | none => pyStrip ((b :: bs).getLastD [])
    | [] =>
      match collectLines false (pySplitNL r) with
      | l :: ls => pyStrip (joinNL (l :: ls))
      | [] => pyStrip r

/-! ## PonyCompiler.compile_code (evaluator.py lines 71-139) -/

def actorMainLit : Str := ("actor Main").data
def createLit : Str := ("new create(env: Env) =>").data
def wrapHeader : Str :=
  ("actor Main\n  new create(env: Env) =>\n    env.out.print(\"Compilation test\")\n\n").data

/-- The insert-after-create loop (evaluator.py lines 90-99): append each line;
after the first line containing the constructor pattern, splice in the
indented function lines followed by one blank line. -/
def insertAfterCreate (funcLines : List Str) : List Str → List Str
  | [] => []
  | l :: ls =>
    if containsSub createLit l then
      l :: (funcLines.map (fun fl => ("  ").data ++ fl) ++ ([] :: ls))
    else l :: insertAfterCreate funcLines ls

/-- The structural normalizer of `compile_code` (evaluator.py lines 76-115):
the source text that is written to `main.pony`. -/
def normalize (code : Str) : Str :=
  match splitFirst actorMainLit code with
  | none => wrapHeader ++ code ++ [ '\n']
  | some (b, a) =>
    if (pyStrip b).isEmpty then actorMainLit ++ a
    else if ("fun ").data.isPrefixOf (pyStrip b) then
      actorMainLit ++ '\n' :: joinNL (insertAfterCreate (pySplitNL (pyStrip b)) (pySplitNL a))
    else pyStrip b ++ ("\n\nactor Main").data ++ a

/-- The possible outcomes of the `subprocess.run` call on the work directory:
normal completion, `subprocess.TimeoutExpired`, or any other exception. -/
inductive ProcResult where
  | completed (returncode : Int) (stdout stderr : Str)
  | timedOut
  | launchFailed (msg : Str)
deriving DecidableEq

def verifyingLit : Str := ("Verifying").data
def writingLit : Str := ("Writing").data

/-- The verdict classification of `compile_code` (evaluator.py lines 119-139). -/
def classify : ProcResult → Bool × Option Str
  | .completed rc so se =>
    if rc = 0 || containsSub verifyingLit (so ++ se) || containsSub writingLit (so ++ se)
    then (true, none)
    else (false, some se)
  | .timedOut => (false, some (("Compilation timeout (30s)").data))
  | .launchFailed m => (false, some (("Compilation error: ").data ++ m))

/-- `PonyCompiler.compile_code`: normalize, write `main.pony` (the written text
is `normalize code`), invoke the compiler subprocess (modelled by `run`,
which receives the written source), classify. -/
def compile_code (code : Str) (run : Str → ProcResult) : Bool × Option Str :=
  classify (run (normalize code))

/-! ## Evaluator.evaluate_task (evaluator.py lines 287-369) -/

/-- The returned per-triple outcome record (the fields of the returned attempt
dict that the retry logic determines). `attemptNumber` is 1-based. -/
structure Outcome where
  attemptNumber : Nat
  success : Bool
  retryCount : Nat
  totalAttempts : Nat
deriving DecidableEq

/-- Either a returned outcome dict or an uncaught exception inside
`evaluate_task`. -/
inductive EvalResult where
  | ok (o : Outcome)
  | raised (msg : Str)
deriving DecidableEq

/-- The observable trace of one `evaluate_task` call: its result, the number
of loop iterations performed, and the 1-based attempt numbers on which the
generated source file was written (`code_file.write_text`). -/
structure EvalTrace where
  result : EvalResult
  attemptsMade : Nat
  saved : List Nat
deriving DecidableEq

/-- The `for attempt in range(self.max_retries)` loop, from attempt index `a`
with `r` iterations remaining.  `compiles i` is the compiler verdict of
attempt index `i` (0-based).  Returns (write events, iterations performed,
early-return outcome if compilation succeeded). -/
def evalLoop (compiles : Nat → Bool) (mx : Nat) : Nat → Nat → List Nat × Nat × Option Outcome
  | _, 0 => ([], 0, none)
  | a, r+1 =>
    if compiles a then
      (if a = 0 ∨ a = mx - 1 then [a + 1] else [], 1, some ⟨a + 1, true, a, a + 1⟩)
    else
      ((if a = 0 ∨ a = mx - 1 then [a + 1] else []) ++ (evalLoop compiles mx (a + 1) r).1,
        (evalLoop compiles mx (a + 1) r).2.1 + 1, (evalLoop compiles mx (a + 1) r).2.2)

/-- `Evaluator.evaluate_task` with `max_retries = mx`.  On exhaustion the last
attempt dict is enriched with retry metadata; with an empty attempt list the
fallback `{...}` is a set literal and the subsequent item assignment raises
`TypeError`. -/
def evaluate_task (compiles : Nat → Bool) (mx : Nat) : EvalTrace :=
  match (evalLoop compiles mx 0 mx).2.2 with
  | some o => ⟨.ok o, (evalLoop compiles mx 0 mx).2.1, (evalLoop compiles mx 0 mx).1⟩
  | none =>
    if (evalLoop compiles mx 0 mx).2.1 = 0 then
      ⟨.raised (("TypeError: set object does not support item assignment").data), 0,
        (evalLoop compiles mx 0 mx).1⟩
    else
      ⟨.ok ⟨mx, false, mx - 1, mx⟩, (evalLoop compiles mx 0 mx).2.1,
        (evalLoop compiles mx 0 mx).1⟩

-- sanity checks against Python behaviour (scratch, removed later)
example :
    extract_code_from_response (("```pony\nactor Main\n  new create(env: Env) =>\n    None\n```").data)
      = ("actor Main\n  new create(env: Env) =>\n    None").data := by decide
example :
    extract_code_from_response (("pre\n```pony\nA\n```\nmid\n```pony\nB\n```\npost").data)
      = ("B").data := by decide
example :
    extract_code_from_response (("no code at all\njust text").data)
      = ("no code at all\njust text").data := by decide
example :
    extract_code_from_response (("text\n```\nactor Foo\n```\n").data) = ("actor Foo").data := by
  decide
example :
    normalize (("primitive X").data)
      = ("actor Main\n  new create(env: Env) =>\n    env.out.print(\"Compilation test\")\n\nprimitive X\n").data := by
  decide
example :
    normalize (("fun foo() => 1\n\nactor Main\n  new create(env: Env) =>\n    x").data)
      = ("actor Main\n\n  new create(env: Env) =>\n  fun foo() => 1\n\n    x").data := by decide
example :
    normalize (("fun foo() => 1\nactor Main\n  bar").data)
      = ("actor Main\n\n  bar").data := by decide
example :
    evaluate_task (fun i => decide (i = 1)) 3
      = ⟨.ok ⟨2, true, 1, 2⟩, 2, [1]⟩ := by decide
example :
    evaluate_task (fun _ => false) 3
      = ⟨.ok ⟨3, false, 2, 3⟩, 3, [1, 3]⟩ := by decide
example :
    evaluate_task (fun _ => true) 0
      = ⟨.raised (("TypeError: set object does not support item assignment").data), 0, []⟩ := by
  decide
example :
    normalize (("class C\n\nactor Main\n  x").data) = ("class C\n\nactor Main\n  x").data := by
  decide
example : normalize (("  actor Main\n  x").data) = ("actor Main\n  x").data := by decide
example :
    extract_code_from_response (("Here is code:\nactor Main\n  stuff").data)
      = ("actor Main\n  stuff").data := by decide
example :
    extract_code_from_response (("x ```pony\nno close").data) = ("x ```pony\nno close").data := by
  decide
example :
    extract_code_from_response (("```\nplain\n```\n```\nother\n```").data) = ("other").data := by
  decide
example : clean_pony_code (("package \n  foo  \n\nbar").data) = ("bar").data := by decide
example : clean_pony_code (("12U3U.").data) = ("12U3.").data := by decide
example :
    clean_pony_code (("a == b or c == d and e == f").data)
      = ("(a == b) or (c == d) and e == f").data := by decide
example : clean_pony_code (("ifthen then").data) = ("ifthen then").data := by decide
example : clean_pony_code (("[x]z[a].values()").data) = ("[x]z[a]").data := by decide

/-! ## Basic lemmas about the string utilities -/

theorem isPrefixOf_iff_ex {p s : Str} : p.isPrefixOf s = true ↔ ∃ t, s = p ++ t := by
  induction p generalizing s with
  | nil => simp [List.isPrefixOf]
  | cons a as ih =>
    cases s with
    | nil => simp [List.isPrefixOf]
    | cons b bs =>
      simp only [List.isPrefixOf, Bool.and_eq_true, beq_iff_eq, ih, List.cons_append,
        List.cons.injEq]
      constructor
      · rintro ⟨rfl, t, rfl⟩; exact ⟨t, rfl, rfl⟩
      · rintro ⟨t, rfl, rfl⟩; exact ⟨rfl, t, rfl⟩

theorem containsSub_iff_ex {p s : Str} : containsSub p s = true ↔ ∃ l r, s = l ++ p ++ r := by
  induction s with
  | nil =>
    simp only [containsSub, List.isEmpty_iff]
    constructor
    · rintro rfl; exact ⟨[], [], rfl⟩
    · rintro ⟨l, r, h⟩
      rcases List.append_eq_nil.mp ((List.append_eq_nil).mp h.symm).1 with ⟨_, h2⟩
      exact h2
  | cons c rest ih =>
    simp only [containsSub, Bool.or_eq_true, isPrefixOf_iff_ex, ih]
    constructor
    · rintro (⟨t, ht⟩ | ⟨l, r, hr⟩)
      · exact ⟨[], t, by simp [ht]⟩
      · exact ⟨c :: l, r, by simp [hr]⟩
    · rintro ⟨l, r, hl⟩
      cases l with
      | nil => exact Or.inl ⟨r, by simpa using hl⟩
      | cons x xs =>
        right
        refine ⟨xs, r, ?_⟩
        have := hl
        simp only [List.cons_append] at this
        exact (List.cons.injEq _ _ _ _ ▸ this).2

theorem containsSub_of_parts {p l r s : Str} (h : s = l ++ p ++ r) :
    containsSub p s = true := containsSub_iff_ex.mpr ⟨l, r, h⟩

theorem not_containsSub_mono {p s : Str} {l m r : Str} (hs : s = l ++ m ++ r)
    (h : containsSub p s = false) : containsSub p m = false := by
  by_contra hm0
  have hm1 : containsSub p m = true := by
    cases hcm : containsSub p m with
    | false => exact absurd hcm hm0
    | true => rfl
  rcases containsSub_iff_ex.mp hm1 with ⟨x, y, hm⟩
  have : containsSub p s = true :=
    containsSub_of_parts (l := l ++ x) (r := y ++ r) (by subst hm; subst hs; simp)
  rw [h] at this
  exact Bool.false_ne_true this

theorem containsSub_tail {p : Str} {c : Char} {rest : Str}
    (h : containsSub p (c :: rest) = false) : containsSub p rest = false := by
  have := h
  simp only [containsSub, Bool.or_eq_false_iff] at this
  exact this.2

theorem splitFirst_none_iff {p s : Str} (hp : p ≠ []) :
    splitFirst p s = none ↔ containsSub p s = false := by
  induction s with
  | nil =>
    simp [splitFirst, containsSub, List.isEmpty_iff, hp]
  | cons c rest ih =>
    simp only [splitFirst, containsSub]
    by_cases hpre : p.isPrefixOf (c :: rest) = true
    · simp [hpre]
    · simp only [Bool.not_eq_true] at hpre
      rw [if_neg (by simp [hpre]), hpre, Bool.false_or, ← ih]
      cases hsf : splitFirst p rest with
      | none => simp
      | some ba => cases ba; simp

theorem dropWhile_cons_false {p : Char → Bool} {c : Char} {t : Str} (h : p c = false) :
    List.dropWhile p (c :: t) = c :: t := by
  simp [List.dropWhile, h]

theorem length_dropWhile_le (p : Char → Bool) :
    ∀ l : Str, (List.dropWhile p l).length ≤ l.length
  | [] => Nat.le_refl _
  | c :: t => by
    cases hc : p c with
    | true => simpa [List.dropWhile, hc] using Nat.le_succ_of_le (length_dropWhile_le p t)
    | false => simp [List.dropWhile, hc]

theorem dropWhile_head_false {p : Char → Bool} {c : Char} {t : Str}
    (h : List.dropWhile p (c :: t) = c :: t) : p c = false := by
  cases hc : p c with
  | false => rfl
  | true =>
    have h1 : List.dropWhile p (c :: t) = List.dropWhile p t := by simp [List.dropWhile, hc]
    have h2 : (List.dropWhile p t).length ≤ t.length := length_dropWhile_le p t
    rw [h] at h1
    have h3 : (c :: t).length ≤ t.length := h1 ▸ h2
    simp only [List.length_cons] at h3
    omega

theorem dropWhile_idem {p : Char → Bool} (l : Str) :
    List.dropWhile p (List.dropWhile p l) = List.dropWhile p l := by
  induction l with
  | nil => simp
  | cons c t ih =>
    cases hc : p c with
    | true => simpa [List.dropWhile, hc] using ih
    | false => rw [dropWhile_cons_false hc, dropWhile_cons_false hc]

theorem dropWhile_eq_self_of_head {p : Char → Bool} {x l : Str} (hx : ∃ t, l = x ++ t)
    (h : List.dropWhile p l = l) : List.dropWhile p x = x := by
  cases x with
  | nil => simp
  | cons c t =>
    rcases hx with ⟨t2, rfl⟩
    have hc : p c = false :=
      dropWhile_head_false (t := t ++ t2) (by simpa using h)
    exact dropWhile_cons_false hc

theorem rev_split (u : Str) :
    u = (u.reverse.dropWhile isPSpace).reverse ++ (u.reverse.takeWhile isPSpace).reverse := by
  rw [← List.reverse_append, List.takeWhile_append_dropWhile, List.reverse_reverse]

theorem pyStrip_parts (s : Str) : ∃ l r, s = l ++ pyStrip s ++ r := by
  refine ⟨s.takeWhile isPSpace,
    ((s.dropWhile isPSpace).reverse.takeWhile isPSpace).reverse, ?_⟩
  have h1 : pyStrip s = ((s.dropWhile isPSpace).reverse.dropWhile isPSpace).reverse := rfl
  rw [h1, List.append_assoc, ← rev_split (s.dropWhile isPSpace),
    List.takeWhile_append_dropWhile]

theorem pyStrip_idem (s : Str) : pyStrip (pyStrip s) = pyStrip s := by
  have hu : List.dropWhile isPSpace (s.dropWhile isPSpace) = s.dropWhile isPSpace :=
    dropWhile_idem _
  have hPS : (pyStrip s).reverse = (s.dropWhile isPSpace).reverse.dropWhile isPSpace := by
    rw [pyStrip, List.reverse_reverse]
  have hB : List.dropWhile isPSpace ((pyStrip s).reverse) = (pyStrip s).reverse := by
    rw [hPS]; exact dropWhile_idem _
  have hA : List.dropWhile isPSpace (pyStrip s) = pyStrip s := by
    refine dropWhile_eq_self_of_head ?_ hu
    exact ⟨((s.dropWhile isPSpace).reverse.takeWhile isPSpace).reverse,
      rev_split (s.dropWhile isPSpace)⟩
  conv_lhs => rw [pyStrip, hA, hB, List.reverse_reverse]

theorem splitFirst_some_parts {p s b a : Str} (h : splitFirst p s = some (b, a)) :
    s = b ++ p ++ a := by
  induction s generalizing b with
  | nil =>
    simp only [splitFirst] at h
    split at h
    · next hp =>
      simp only [Option.some.injEq, Prod.mk.injEq] at h
      rcases h with ⟨rfl, rfl⟩
      simp [List.isEmpty_iff.mp hp]
    · exact absurd h (by simp)
  | cons c rest ih =>
    simp only [splitFirst] at h
    split at h
    · next hpre =>
      simp only [Option.some.injEq, Prod.mk.injEq] at h
      rcases h with ⟨rfl, rfl⟩
      rcases isPrefixOf_iff_ex.mp hpre with ⟨t, ht⟩
      simp [ht, List.drop_left]
    · next hpre =>
      cases hsf : splitFirst p rest with
      | none => rw [hsf] at h; exact absurd h (by simp)
      | some ba =>
        cases ba with
        | mk b2 a2 =>
          rw [hsf] at h
          simp only [Option.some.injEq, Prod.mk.injEq] at h
          rcases h with ⟨rfl, rfl⟩
          simp [ih hsf]
example : stripU (("3U + 2U").data) = ("3 + 2").data := by decide
example : clean_pony_code (("3U + 2U").data) = ("3 + 2").data := by decide
example : clean_pony_code (("  package foo\nbar").data) = ("package foo\nbar").data := by decide
example : clean_pony_code (("package foo\nbar").data) = ("bar").data := by decide
example : subValues (("[a].values().values()").data) = ("[a].values()").data := by decide
example : subCmp (("n == 0 or n == 1").data) = ("(n == 0) or (n == 1)").data := by decide
example : clean_pony_code (("if x then").data) = ("if x then\n    end").data := by decide
example : countIfThen (("if a then x if b then").data) = 1 := by decide
example : countEnd (("end bend end").data) = 2 := by decide

/-! ## Lemmas about the retry loop -/

theorem evalLoop_succ_true {c : Nat → Bool} {mx a r : Nat} (hc : c a = true) :
    evalLoop c mx a (r + 1) =
      (if a = 0 ∨ a = mx - 1 then [a + 1] else [], 1, some ⟨a + 1, true, a, a + 1⟩) := by
  simp [evalLoop, hc]

theorem evalLoop_succ_false {c : Nat → Bool} {mx a r : Nat} (hc : c a = false) :
    evalLoop c mx a (r + 1) =
      ((if a = 0 ∨ a = mx - 1 then [a + 1] else []) ++ (evalLoop c mx (a + 1) r).1,
        (evalLoop c mx (a + 1) r).2.1 + 1, (evalLoop c mx (a + 1) r).2.2) := by
  simp [evalLoop, hc]

theorem evalLoop_made_le (c : Nat → Bool) (mx : Nat) :
    ∀ r a, (evalLoop c mx a r).2.1 ≤ r
  | 0, a => by simp [evalLoop]
  | r+1, a => by
    cases hc : c a with
    | true => rw [evalLoop_succ_true hc]; simp
    | false =>
      rw [evalLoop_succ_false hc]
      simpa using Nat.succ_le_succ (evalLoop_made_le c mx r (a + 1))

theorem evalLoop_none (c : Nat → Bool) (mx : Nat) :
    ∀ r a, (evalLoop c mx a r).2.2 = none →
      (evalLoop c mx a r).2.1 = r ∧ ∀ j, j < r → c (a + j) = false
  | 0, a => by simp [evalLoop]
  | r+1, a => by
    intro h
    cases hc : c a with
    | true => rw [evalLoop_succ_true hc] at h; simp at h
    | false =>
      rw [evalLoop_succ_false hc] at h ⊢
      have ih := evalLoop_none c mx r (a + 1) h
      refine ⟨by simpa using ih.1, ?_⟩
      intro j hj
      cases j with
      | zero => simpa using hc
      | succ j2 =>
        have := ih.2 j2 (by omega)
        have e1 : a + 1 + j2 = a + (j2 + 1) := by omega
        rw [e1] at this
        exact this

theorem evalLoop_some (c : Nat → Bool) (mx : Nat) :
    ∀ r a o, (evalLoop c mx a r).2.2 = some o →
      1 ≤ (evalLoop c mx a r).2.1 ∧
      o = ⟨a + (evalLoop c mx a r).2.1, true, a + (evalLoop c mx a r).2.1 - 1,
        a + (evalLoop c mx a r).2.1⟩ ∧
      c (a + (evalLoop c mx a r).2.1 - 1) = true ∧
      (∀ j, j + 1 < (evalLoop c mx a r).2.1 → c (a + j) = false)
  | 0, a, o => by simp [evalLoop]
  | r+1, a, o => by
    intro h
    cases hc : c a with
    | true =>
      rw [evalLoop_succ_true hc] at h ⊢
      simp only [Option.some.injEq] at h
      subst h
      refine ⟨Nat.le_refl _, by simp, by simpa using hc, ?_⟩
      intro j hj
      simp at hj
    | false =>
      rw [evalLoop_succ_false hc] at h ⊢
      have ih := evalLoop_some c mx r (a + 1) o h
      obtain ⟨ih1, ih2, ih3, ih4⟩ := ih
      have e1 : a + 1 + (evalLoop c mx (a + 1) r).2.1
          = a + ((evalLoop c mx (a + 1) r).2.1 + 1) := by omega
      refine ⟨?_, ?_, ?_, ?_⟩
      · show 1 ≤ (evalLoop c mx (a + 1) r).2.1 + 1
        omega
      · show o = ⟨a + ((evalLoop c mx (a + 1) r).2.1 + 1), true,
          a + ((evalLoop c mx (a + 1) r).2.1 + 1) - 1,
          a + ((evalLoop c mx (a + 1) r).2.1 + 1)⟩
        rw [ih2]
        simp only [e1]
      · show c (a + ((evalLoop c mx (a + 1) r).2.1 + 1) - 1) = true
        simp only [← e1]
        exact ih3
      · intro j hj
        have hj2 : j + 1 < (evalLoop c mx (a + 1) r).2.1 + 1 := hj
        cases j with
        | zero => simpa using hc
        | succ j2 =>
          have := ih4 j2 (by omega)
          have e2 : a + 1 + j2 = a + (j2 + 1) := by omega
          rw [e2] at this
          exact this

theorem evalLoop_saved (c : Nat → Bool) (mx : Nat) :
    ∀ r a, (evalLoop c mx a r).1 =
      (((List.range (evalLoop c mx a r).2.1).map (fun j => a + j)).filter
        (fun i => decide (i = 0 ∨ i = mx - 1))).map (fun i => i + 1)
  | 0, a => by simp [evalLoop]
  | r+1, a => by
    cases hc : c a with
    | true =>
      rw [evalLoop_succ_true hc]
      by_cases ha : a = 0 ∨ a = mx - 1
      · simp [ha, List.range_succ]
      · simp [ha, List.range_succ]
    | false =>
      rw [evalLoop_succ_false hc]
      have ih := evalLoop_saved c mx r (a + 1)
      have hrange : List.range ((evalLoop c mx (a + 1) r).2.1 + 1)
          = 0 :: (List.range (evalLoop c mx (a + 1) r).2.1).map Nat.succ :=
        List.range_succ_eq_map _
      simp only [hrange, List.map_cons, List.map_map, Nat.add_zero]
      have hmap : ((List.range (evalLoop c mx (a + 1) r).2.1).map
            ((fun j => a + j) ∘ Nat.succ))
          = (List.range (evalLoop c mx (a + 1) r).2.1).map (fun j => a + 1 + j) := by
        apply List.map_congr_left
        intro x _
        simp only [Function.comp]
        omega
      rw [hmap]
      by_cases ha : a = 0 ∨ a = mx - 1
      · rw [List.filter_cons, if_pos (by simpa using ha)]
        simp only [List.map_cons, ih]
        simp [ha]
      · rw [List.filter_cons, if_neg (by simpa using ha)]
        simp only [ih]
        simp [ha]

/-- The filtered save positions among `m` executed 0-based attempt indices:
index 0 always saves; index `mx - 1` additionally saves exactly when the loop
ran all `mx` iterations and `mx ≥ 2`. -/
theorem filter_range_saves (mx : Nat) :
    ∀ m, 1 ≤ m → m ≤ mx →
      (List.range m).filter (fun i => decide (i = 0 ∨ i = mx - 1)) =
        if m = mx ∧ 2 ≤ mx then [0, mx - 1] else [0]
  | 0, h1, _ => by omega
  | 1, _, h2 => by
    rw [if_neg (by omega)]
    have h3 : List.range 1 = [0] := rfl
    rw [h3]
    simp
  | m+2, _, h2 => by
    have ih := filter_range_saves mx (m + 1) (by omega) (by omega)
    rw [List.range_succ, List.filter_append]
    by_cases hm : m + 2 = mx
    · rw [if_pos ⟨hm, by omega⟩]
      have hne : ¬ (m + 1 = mx ∧ 2 ≤ mx) := by omega
      rw [ih, if_neg hne]
      have : m + 1 = mx - 1 := by omega
      simp [this]
    · rw [if_neg (by tauto)]
      have hne : ¬ (m + 1 = mx ∧ 2 ≤ mx) := by omega
      rw [ih, if_neg hne]
      have hA : ¬ m + 1 = 0 := by omega
      have hB : ¬ m + 1 = mx - 1 := by omega
      simp [hA, hB]

/-- Claim C1: with `max_retries ≥ 1` the retry loop of `evaluate_task`
terminates after at most `max_retries` attempts, every attempt before the
returned one failed to compile (so the loop returns immediately after the
first success, with no further attempts), the returned outcome is an actual
outcome dict (no exception), and it satisfies
`total_attempts ≤ max_retries` and `retry_count = total_attempts - 1`. -/
theorem C1_retry_loop (c : Nat → Bool) (mx : Nat) (h : 1 ≤ mx) :
    ∃ o : Outcome,
      (evaluate_task c mx).result = .ok o ∧
      (evaluate_task c mx).attemptsMade ≤ mx ∧
      (evaluate_task c mx).attemptsMade = o.totalAttempts ∧
      o.totalAttempts ≤ mx ∧
      o.retryCount = o.totalAttempts - 1 ∧
      (∀ j, j + 1 < o.totalAttempts → c j = false) ∧
      (∀ j, j < mx → c j = true → o.totalAttempts ≤ j + 1) := by
  have hle := evalLoop_made_le c mx mx 0
  cases hres : (evalLoop c mx 0 mx).2.2 with
  | some o =>
    obtain ⟨h1, h2, h3, h4⟩ := evalLoop_some c mx mx 0 o hres
    refine ⟨o, ?_⟩
    have htrace : evaluate_task c mx
        = ⟨.ok o, (evalLoop c mx 0 mx).2.1, (evalLoop c mx 0 mx).1⟩ := by
      unfold evaluate_task
      rw [hres]
    rw [htrace]
    have ho : o.totalAttempts = (evalLoop c mx 0 mx).2.1 := by rw [h2]; simp
    have hrc : o.retryCount = (evalLoop c mx 0 mx).2.1 - 1 := by rw [h2]; simp
    refine ⟨rfl, hle, ho.symm, by omega, by omega, ?_, ?_⟩
    · intro j hj
      rw [ho] at hj
      simpa using h4 j hj
    · intro j hj hcj
      by_contra hlt
      rw [ho] at hlt
      have : c (0 + j) = false := h4 j (by omega)
      simp only [Nat.zero_add] at this
      rw [hcj] at this
      simp at this
  | none =>
    obtain ⟨h1, h2⟩ := evalLoop_none c mx mx 0 hres
    have htrace : evaluate_task c mx
        = ⟨.ok ⟨mx, false, mx - 1, mx⟩, (evalLoop c mx 0 mx).2.1, (evalLoop c mx 0 mx).1⟩ := by
      unfold evaluate_task
      rw [hres]
      rw [if_neg (by omega)]
    refine ⟨⟨mx, false, mx - 1, mx⟩, ?_⟩
    rw [htrace]
    refine ⟨rfl, hle, by simpa using h1, Nat.le_refl _, rfl, ?_, ?_⟩
    · intro j hj
      have hj2 : j + 1 < mx := hj
      simpa using h2 j (by omega)
    · intro j hj hcj
      have : c (0 + j) = false := h2 j hj
      simp only [Nat.zero_add] at this
      rw [hcj] at this
      simp at this

/-- Witness for C1 at the concrete input `compiles = fun _ => true`,
`max_retries = 1`. -/
theorem C1_retry_loop_witness :
    1 ≤ 1 ∧
    (∃ o : Outcome,
      (evaluate_task (fun _ => true) 1).result = .ok o ∧
      (evaluate_task (fun _ => true) 1).attemptsMade ≤ 1 ∧
      (evaluate_task (fun _ => true) 1).attemptsMade = o.totalAttempts ∧
      o.totalAttempts ≤ 1 ∧
      o.retryCount = o.totalAttempts - 1 ∧
      (∀ j, j + 1 < o.totalAttempts → (fun _ => true) j = false) ∧
      (∀ j, j < 1 → (fun _ => true) j = true → o.totalAttempts ≤ j + 1)) :=
  ⟨Nat.le_refl 1, C1_retry_loop (fun _ => true) 1 (Nat.le_refl 1)⟩

/-- Counterexample to claim C3 as stated: with `max_retries = 3` and a run
whose first attempt fails and second attempt compiles, the loop returns on
attempt 2 (the final attempt of this evaluation), yet the generated source
was written only on attempt 1 — the save condition is
`attempt == 0 or attempt == max_retries - 1`, not "the attempt on which the
loop returns". -/
theorem C3_saves_cex :
    (evaluate_task (fun i => decide (i = 1)) 3).attemptsMade = 2 ∧
    (evaluate_task (fun i => decide (i = 1)) 3).result = .ok ⟨2, true, 1, 2⟩ ∧
    (evaluate_task (fun i => decide (i = 1)) 3).saved = [1] ∧
    ¬ (2 ∈ (evaluate_task (fun i => decide (i = 1)) 3).saved) := by decide

/-- Claim C3 (amended): within one evaluation with `max_retries ≥ 1`, the
generated source is written exactly on attempt 1 and, additionally, on
attempt `max_retries` when the loop actually reaches it and `max_retries ≥ 2`
— i.e. on the last PERMITTED attempt, not on the attempt on which the loop
returns.  (The save step itself only writes the file: in the model it only
appends to the `saved` trace and leaves the outcome fields untouched.) -/
theorem C3_saves_amended (c : Nat → Bool) (mx : Nat) (h : 1 ≤ mx) :
    (evaluate_task c mx).saved =
      if (evaluate_task c mx).attemptsMade = mx ∧ 2 ≤ mx then [1, mx] else [1] := by
  have hle := evalLoop_made_le c mx mx 0
  have hsv := evalLoop_saved c mx mx 0
  have hmade1 : 1 ≤ (evalLoop c mx 0 mx).2.1 := by
    cases hres : (evalLoop c mx 0 mx).2.2 with
    | some o => exact (evalLoop_some c mx mx 0 o hres).1
    | none =>
      have := (evalLoop_none c mx mx 0 hres).1
      omega
  have hmap0 : (List.range (evalLoop c mx 0 mx).2.1).map (fun j => 0 + j)
      = List.range (evalLoop c mx 0 mx).2.1 := by
    simp
  rw [hmap0] at hsv
  rw [filter_range_saves mx _ hmade1 hle] at hsv
  have hsaved : (evaluate_task c mx).saved = (evalLoop c mx 0 mx).1 := by
    unfold evaluate_task
    cases hres : (evalLoop c mx 0 mx).2.2 with
    | some o => rfl
    | none => rw [if_neg (by omega)]
  have hmade : (evaluate_task c mx).attemptsMade = (evalLoop c mx 0 mx).2.1 := by
    unfold evaluate_task
    cases hres : (evalLoop c mx 0 mx).2.2 with
    | some o => rfl
    | none => rw [if_neg (by omega)]
  rw [hsaved, hsv, hmade]
  by_cases hcond : (evalLoop c mx 0 mx).2.1 = mx ∧ 2 ≤ mx
  · rw [if_pos hcond, if_pos hcond]
    simp only [List.map_cons, List.map_nil]
    have : mx - 1 + 1 = mx := by omega
    rw [this]
  · rw [if_neg hcond, if_neg hcond]
    simp

/-- Witness for the amended C3 at `compiles = fun _ => false`,
`max_retries = 2`: both attempts run, attempts 1 and 2 are saved. -/
theorem C3_saves_amended_witness :
    1 ≤ 2 ∧
    (evaluate_task (fun _ => false) 2).saved =
      (if (evaluate_task (fun _ => false) 2).attemptsMade = 2 ∧ 2 ≤ 2
       then [1, 2] else [1]) :=
  ⟨by omega, C3_saves_amended (fun _ => false) 2 (by omega)⟩

/-! ## Lemmas about the structural normalizer -/

theorem pySplitNL_shape : ∀ s : Str, ∃ l0 ls, pySplitNL s = l0 :: ls ∧
    (∃ y, s = l0 ++ y) ∧ (∀ l ∈ ls, ∃ x y, s = x ++ l ++ y)
  | [] => ⟨[], [], rfl, ⟨[], rfl⟩, by simp⟩
  | c :: rest => by
    obtain ⟨l0, ls, h, ⟨y0, hy0⟩, hmem⟩ := pySplitNL_shape rest
    by_cases hc : c = '\n'
    · refine ⟨[], l0 :: ls, ?_, ⟨c :: rest, rfl⟩, ?_⟩
      · simp [pySplitNL, h, hc]
      · intro l hl
        rcases List.mem_cons.mp hl with rfl | hl2
        · exact ⟨[c], y0, by simp [hy0]⟩
        · obtain ⟨x, y, hxy⟩ := hmem l hl2
          exact ⟨c :: x, y, by simp [hxy]⟩
    · refine ⟨c :: l0, ls, ?_, ⟨y0, by simp [hy0]⟩, ?_⟩
      · simp [pySplitNL, h, hc]
      · intro l hl
        obtain ⟨x, y, hxy⟩ := hmem l hl
        exact ⟨c :: x, y, by simp [hxy]⟩

theorem pySplitNL_mem_parts {s l : Str} (h : l ∈ pySplitNL s) : ∃ x y, s = x ++ l ++ y := by
  obtain ⟨l0, ls, hsh, ⟨y0, hy0⟩, hmem⟩ := pySplitNL_shape s
  rw [hsh] at h
  rcases List.mem_cons.mp h with rfl | h2
  · exact ⟨[], y0, by simp [hy0]⟩
  · exact hmem l h2

theorem joinNL_pySplitNL : ∀ s : Str, joinNL (pySplitNL s) = s
  | [] => rfl
  | c :: rest => by
    obtain ⟨l0, ls, h, _, _⟩ := pySplitNL_shape rest
    have ih := joinNL_pySplitNL rest
    rw [h] at ih
    by_cases hc : c = '\n'
    · have hs : pySplitNL (c :: rest) = [] :: l0 :: ls := by simp [pySplitNL, h, hc]
      rw [hs]
      show [] ++ '\n' :: joinNL (l0 :: ls) = c :: rest
      rw [ih, hc]
      rfl
    · have hs : pySplitNL (c :: rest) = (c :: l0) :: ls := by simp [pySplitNL, h, hc]
      rw [hs]
      cases ls with
      | nil =>
        show c :: l0 = c :: rest
        rw [show joinNL [l0] = l0 from rfl] at ih
        rw [ih]
      | cons l1 ls2 =>
        show (c :: l0) ++ '\n' :: joinNL (l1 :: ls2) = c :: rest
        rw [← ih]
        rfl

theorem insertAfterCreate_id {F : List Str} :
    ∀ {L : List Str}, (∀ l ∈ L, containsSub createLit l = false) →
      insertAfterCreate F L = L
  | [], _ => rfl
  | l :: ls, h => by
    have hl : containsSub createLit l = false := h l (by simp)
    have hls : ∀ l2 ∈ ls, containsSub createLit l2 = false := fun l2 hm => h l2 (by simp [hm])
    simp only [insertAfterCreate, hl]
    rw [if_neg (by simp)]
    rw [insertAfterCreate_id hls]

theorem normalize_none {code : Str} (h : splitFirst actorMainLit code = none) :
    normalize code = wrapHeader ++ code ++ [ '\n'] := by
  unfold normalize
  rw [h]

theorem normalize_some {code b a : Str} (h : splitFirst actorMainLit code = some (b, a)) :
    normalize code =
      if (pyStrip b).isEmpty then actorMainLit ++ a
      else if ("fun ").data.isPrefixOf (pyStrip b) then
        actorMainLit ++ '\n' :: joinNL (insertAfterCreate (pySplitNL (pyStrip b)) (pySplitNL a))
      else pyStrip b ++ ("\n\nactor Main").data ++ a := by
  unfold normalize
  rw [h]

/-- Claim C7: for every input source string, the normalized text written to
`main.pony` contains the entry-point keyword `actor Main`. -/
theorem C7_normalizer_entrypoint (code : Str) :
    containsSub actorMainLit (normalize code) = true := by
  cases hsf : splitFirst actorMainLit code with
  | none =>
    rw [normalize_none hsf]
    have hw : wrapHeader = actorMainLit ++
        (("\n  new create(env: Env) =>\n    env.out.print(\"Compilation test\")\n\n").data) := by
      decide
    apply containsSub_of_parts (l := [])
      (r := ("\n  new create(env: Env) =>\n    env.out.print(\"Compilation test\")\n\n").data
        ++ code ++ [ '\n'])
    rw [hw]
    simp
  | some ba =>
    cases ba with
    | mk b a =>
      rw [normalize_some hsf]
      by_cases hempty : (pyStrip b).isEmpty
      · rw [if_pos hempty]
        exact containsSub_of_parts (l := []) (r := a) (by simp)
      · rw [if_neg hempty]
        by_cases hfun : ("fun ").data.isPrefixOf (pyStrip b) = true
        · rw [if_pos hfun]
          exact containsSub_of_parts (l := [])
            (r := '\n' :: joinNL (insertAfterCreate (pySplitNL (pyStrip b)) (pySplitNL a)))
            (by simp)
        · rw [if_neg hfun]
          have hnl : ("\n\nactor Main").data = [ '\n', '\n'] ++ actorMainLit := by decide
          exact containsSub_of_parts (l := pyStrip b ++ [ '\n', '\n'])
            (r := a) (by rw [hnl]; simp)

/-- Claim C8: for every source string not containing the entry-point construct,
the normalizer output is exactly the synthesized entry-point body (which prints
the fixed diagnostic string `Compilation test`) followed by the original input
unchanged, plus the wrapper's trailing newline. -/
theorem C8_wrap_missing_main (code : Str)
    (h : containsSub actorMainLit code = false) :
    normalize code = wrapHeader ++ code ++ [ '\n'] := by
  unfold normalize
  rw [(splitFirst_none_iff (by decide)).mpr h]

/-- Witness for C8 at the concrete input `"primitive P"`. -/
theorem C8_wrap_missing_main_witness :
    containsSub actorMainLit (("primitive P").data) = false ∧
    normalize (("primitive P").data) = wrapHeader ++ ("primitive P").data ++ [ '\n'] :=
  ⟨by decide, C8_wrap_missing_main (("primitive P").data) (by decide)⟩

/-- Claim C10: when the entry point is present, the (stripped) text preceding
it starts with `fun `, and no line after the entry point contains the exact
constructor pattern `new create(env: Env) =>`, the insertion loop never fires
and the output is `actor Main` + newline + the text after the entry point:
the preceding function text is silently discarded. -/
theorem C10_fun_text_discarded (code b a : Str)
    (hsf : splitFirst actorMainLit code = some (b, a))
    (hfun : ("fun ").data.isPrefixOf (pyStrip b) = true)
    (hno : containsSub createLit a = false) :
    normalize code = actorMainLit ++ '\n' :: a := by
  rw [normalize_some hsf]
  have hne : (pyStrip b).isEmpty = false := by
    rcases isPrefixOf_iff_ex.mp hfun with ⟨t, ht⟩
    rw [ht]
    rfl
  rw [if_neg (by simp [hne]), if_pos hfun]
  have hlines : ∀ l ∈ pySplitNL a, containsSub createLit l = false := by
    intro l hl
    obtain ⟨x, y, hxy⟩ := pySplitNL_mem_parts hl
    exact not_containsSub_mono hxy hno
  rw [insertAfterCreate_id hlines, joinNL_pySplitNL]

/-- Witness for C10 at the concrete input `"fun f() => 1\nactor Main\n  bar"`. -/
theorem C10_fun_text_discarded_witness :
    splitFirst actorMainLit (("fun f() => 1\nactor Main\n  bar").data)
      = some (("fun f() => 1\n").data, ("\n  bar").data) ∧
    ("fun ").data.isPrefixOf (pyStrip (("fun f() => 1\n").data)) = true ∧
    containsSub createLit (("\n  bar").data) = false ∧
    normalize (("fun f() => 1\nactor Main\n  bar").data)
      = actorMainLit ++ '\n' :: ("\n  bar").data :=
  ⟨by decide, by decide, by decide,
    C10_fun_text_discarded (("fun f() => 1\nactor Main\n  bar").data)
      (("fun f() => 1\n").data) (("\n  bar").data)
      (by decide) (by decide) (by decide)⟩

/-- Claim C4: for every source text and work directory, when the compiler
subprocess completes normally, `compile_code` returns `(True, None)` iff the
exit code is 0 or the combined stdout+stderr contains a progress marker
(`Verifying` or `Writing`); otherwise it returns `(False, stderr)`. -/
theorem C4_compile_classification (code : Str) (run : Str → ProcResult)
    (rc : Int) (so se : Str) (h : run (normalize code) = .completed rc so se) :
    (compile_code code run = (true, none) ↔
      (rc = 0 ∨ containsSub verifyingLit (so ++ se) = true ∨
        containsSub writingLit (so ++ se) = true)) ∧
    (¬ (rc = 0 ∨ containsSub verifyingLit (so ++ se) = true ∨
        containsSub writingLit (so ++ se) = true) →
      compile_code code run = (false, some se)) := by
  have hcl : classify (.completed rc so se) =
      if (decide (rc = 0) || containsSub verifyingLit (so ++ se)
          || containsSub writingLit (so ++ se)) = true
      then (true, none) else (false, some se) := rfl
  unfold compile_code
  rw [h, hcl]
  by_cases hcond : rc = 0 ∨ containsSub verifyingLit (so ++ se) = true ∨
      containsSub writingLit (so ++ se) = true
  · have hb : (decide (rc = 0) || containsSub verifyingLit (so ++ se)
        || containsSub writingLit (so ++ se)) = true := by
      rcases hcond with h1 | h2 | h3
      · simp [h1]
      · simp [h2]
      · simp [h3]
    rw [if_pos hb]
    exact ⟨by simp [hcond], by intro hn; exact absurd hcond hn⟩
  · have hb : (decide (rc = 0) || containsSub verifyingLit (so ++ se)
        || containsSub writingLit (so ++ se)) = false := by
      push_neg at hcond
      obtain ⟨h1, h2, h3⟩ := hcond
      simp only [Bool.or_eq_false_iff]
      refine ⟨⟨?_, ?_⟩, ?_⟩
      · simpa using h1
      · simpa using h2
      · simpa using h3
    rw [if_neg (by simp [hb])]
    constructor
    · constructor
      · intro hcontra
        exact absurd hcontra (by simp)
      · intro hc2
        exact absurd hc2 hcond
    · intro _
      rfl

/-- Witness for C4 at a concrete successful completion. -/
theorem C4_compile_classification_witness :
    ((fun _ : Str => ProcResult.completed 0 [] []) (normalize []))
        = ProcResult.completed 0 [] [] ∧
    (compile_code [] (fun _ => ProcResult.completed 0 [] []) = (true, none) ↔
      ((0 : Int) = 0 ∨ containsSub verifyingLit ([] ++ []) = true ∨
        containsSub writingLit ([] ++ []) = true)) ∧
    (¬ ((0 : Int) = 0 ∨ containsSub verifyingLit ([] ++ []) = true ∨
        containsSub writingLit ([] ++ []) = true) →
      compile_code [] (fun _ => ProcResult.completed 0 [] []) = (false, some [])) :=
  ⟨rfl, C4_compile_classification [] (fun _ => ProcResult.completed 0 [] []) 0 [] [] rfl⟩

/-! ## Lemmas about the response extractor -/

def btick : Str := ("`").data

def btChar : Char := Char.ofNat 96

theorem btick_chars : btick = [btChar] := by decide

theorem closeTag_chars : closeTag = '\n' :: btChar :: btChar :: btChar :: [] := by decide

theorem openPony_chars : openPony = btChar :: ("``pony\n").data := by decide

theorem splitFirst_pos {p s : Str} (hs : s ≠ []) (h : p.isPrefixOf s = true) :
    splitFirst p s = some ([], s.drop p.length) := by
  cases s with
  | nil => exact absurd rfl hs
  | cons c rest =>
    show (if p.isPrefixOf (c :: rest) = true
          then some (([] : Str), (c :: rest).drop p.length)
          else match splitFirst p rest with
               | some (b, a) => some (c :: b, a)
               | none => none) = some ([], (c :: rest).drop p.length)
    rw [if_pos h]

theorem splitFirst_neg {p : Str} {c : Char} {rest : Str}
    (h : p.isPrefixOf (c :: rest) = false) :
    splitFirst p (c :: rest) =
      match splitFirst p rest with
      | some (b, a) => some (c :: b, a)
      | none => none := by
  show (if p.isPrefixOf (c :: rest) = true
        then some (([] : Str), (c :: rest).drop p.length)
        else match splitFirst p rest with
             | some (b, a) => some (c :: b, a)
             | none => none)
      = match splitFirst p rest with
        | some (b, a) => some (c :: b, a)
        | none => none
  rw [if_neg (by simp [h])]

theorem findBlocksF_succ {tag s : Str} {f : Nat} (hs : s ≠ [])
    (hpre : tag.isPrefixOf s = true) :
    findBlocksF tag (f + 1) s =
      match splitFirst closeTag (s.drop tag.length) with
      | some (content, after) => content :: findBlocksF tag f after
      | none => findBlocksF tag f s.tail := by
  cases s with
  | nil => exact absurd rfl hs
  | cons c rest =>
    show (if tag.isPrefixOf (c :: rest) = true
          then match splitFirst closeTag ((c :: rest).drop tag.length) with
               | some (content, after) => content :: findBlocksF tag f after
               | none => findBlocksF tag f rest
          else findBlocksF tag f rest)
        = match splitFirst closeTag ((c :: rest).drop tag.length) with
          | some (content, after) => content :: findBlocksF tag f after
          | none => findBlocksF tag f rest
    rw [if_pos hpre]

theorem findBlocksF_eq_nil {tag : Str} (htag : ("```").data.isPrefixOf tag = true) :
    ∀ {s : Str}, containsSub (("```").data) s = false → ∀ f, findBlocksF tag f s = []
  | [], _, f => by cases f <;> rfl
  | c :: rest, h, f => by
    cases f with
    | zero => rfl
    | succ f2 =>
      have hnp : tag.isPrefixOf (c :: rest) = false := by
        cases hp : tag.isPrefixOf (c :: rest) with
        | false => rfl
        | true =>
          rcases isPrefixOf_iff_ex.mp hp with ⟨t2, ht2⟩
          rcases isPrefixOf_iff_ex.mp htag with ⟨t1, ht1⟩
          have : containsSub (("```").data) (c :: rest) = true :=
            containsSub_of_parts (l := []) (r := t1 ++ t2)
              (by rw [ht2, ht1]; simp)
          rw [h] at this
          exact absurd this (by simp)
      simp only [findBlocksF, hnp]
      rw [if_neg (by simp)]
      exact findBlocksF_eq_nil htag (containsSub_tail h) f2

theorem collectLines_nil :
    ∀ {L : List Str}, (∀ l ∈ L, ∀ k ∈ kwListL, containsSub k l = false) →
      collectLines false L = []
  | [], _ => rfl
  | l :: ls, h => by
    have hl : kwListL.any (fun k => containsSub k l) = false := by
      rw [List.any_eq_false]
      intro k hk
      simp [h l (by simp) k hk]
    have hls : ∀ l2 ∈ ls, ∀ k ∈ kwListL, containsSub k l2 = false :=
      fun l2 hm => h l2 (by simp [hm])
    simp only [collectLines, hl, Bool.or_false]
    by_cases hskip : skipMarkers.any (fun m => containsSub m (pyLower l)) = true
    · rw [if_pos hskip]
      exact collectLines_nil hls
    · rw [if_neg hskip, if_neg (by simp)]
      exact collectLines_nil hls

theorem splitFirst_close_at :
    ∀ {b : Str}, containsSub btick b = false → ∀ r : Str,
      splitFirst closeTag (b ++ (closeTag ++ r)) = some (b, r)
  | [], _, r => by
    rw [List.nil_append]
    have hpre : closeTag.isPrefixOf (closeTag ++ r) = true :=
      isPrefixOf_iff_ex.mpr ⟨r, rfl⟩
    have hne : closeTag ++ r ≠ [] := by
      rw [closeTag_chars]; simp
    rw [splitFirst_pos hne hpre, List.drop_left]
  | c :: b2, h, r => by
    have hb2 : containsSub btick b2 = false := containsSub_tail h
    have hnp : closeTag.isPrefixOf (c :: (b2 ++ (closeTag ++ r))) = false := by
      cases hp : closeTag.isPrefixOf (c :: (b2 ++ (closeTag ++ r))) with
      | false => rfl
      | true =>
        rcases isPrefixOf_iff_ex.mp hp with ⟨t, ht⟩
        have ht2 : c :: (b2 ++ (closeTag ++ r))
            = '\n' :: (btChar :: btChar :: btChar :: t) := by
          rw [ht, closeTag_chars]; rfl
        have hc : c = '\n' := (List.cons.injEq _ _ _ _ ▸ ht2).1
        have htl : b2 ++ (closeTag ++ r) = btChar :: btChar :: btChar :: t :=
          (List.cons.injEq _ _ _ _ ▸ ht2).2
        cases b2 with
        | nil =>
          rw [List.nil_append, closeTag_chars] at htl
          have hhd : '\n' = btChar := (List.cons.injEq _ _ _ _ ▸ htl).1
          exact absurd hhd (by decide)
        | cons d b3 =>
          have hd : d = btChar := by
            have hcons : d :: (b3 ++ (closeTag ++ r))
                = btChar :: btChar :: btChar :: t := by
              rw [← htl]; rfl
            exact (List.cons.injEq _ _ _ _ ▸ hcons).1
          have hcon : containsSub btick (c :: d :: b3) = true :=
            containsSub_of_parts (l := [c]) (r := b3)
              (by rw [btick_chars, hd]; rfl)
          rw [h] at hcon
          exact absurd hcon (by simp)
    have hassoc : (c :: b2) ++ (closeTag ++ r) = c :: (b2 ++ (closeTag ++ r)) := rfl
    rw [hassoc, splitFirst_neg hnp, splitFirst_close_at hb2 r]

theorem findBlocksF_skip {tag : Str} (htag : ∃ t, tag = btChar :: t) :
    ∀ {p : Str}, containsSub btick p = false → ∀ (f : Nat) (r : Str),
      findBlocksF tag (p.length + f) (p ++ r) = findBlocksF tag f r
  | [], _, f, r => by simp
  | c :: p2, h, f, r => by
    have hp2 : containsSub btick p2 = false := containsSub_tail h
    have hnp : tag.isPrefixOf (c :: (p2 ++ r)) = false := by
      cases hp : tag.isPrefixOf (c :: (p2 ++ r)) with
      | false => rfl
      | true =>
        rcases htag with ⟨t, rfl⟩
        rcases isPrefixOf_iff_ex.mp hp with ⟨t2, ht2⟩
        have hc : c = btChar := (List.cons.injEq _ _ _ _ ▸ ht2).1
        have hcon : containsSub btick (c :: p2) = true :=
          containsSub_of_parts (l := []) (r := p2)
            (by rw [btick_chars, hc]; rfl)
        rw [h] at hcon
        exact absurd hcon (by simp)
    have e1 : (c :: p2).length + f = (p2.length + f) + 1 := by
      simp only [List.length_cons]; omega
    have hassoc : (c :: p2) ++ r = c :: (p2 ++ r) := rfl
    rw [hassoc, e1]
    show (if tag.isPrefixOf (c :: (p2 ++ r)) = true
          then match splitFirst closeTag ((c :: (p2 ++ r)).drop tag.length) with
               | some (content, after) => content :: findBlocksF tag (p2.length + f) after
               | none => findBlocksF tag (p2.length + f) (p2 ++ r)
          else findBlocksF tag (p2.length + f) (p2 ++ r))
        = findBlocksF tag f r
    rw [if_neg (by simp [hnp])]
    exact findBlocksF_skip htag hp2 f r

theorem findBlocksF_block {b : Str} (hb : containsSub btick b = false)
    (f : Nat) (r : Str) :
    findBlocksF openPony (f + 1) (openPony ++ (b ++ (closeTag ++ r)))
      = b :: findBlocksF openPony f r := by
  have hpre : openPony.isPrefixOf (openPony ++ (b ++ (closeTag ++ r))) = true :=
    isPrefixOf_iff_ex.mpr ⟨b ++ (closeTag ++ r), rfl⟩
  have hdrop : (openPony ++ (b ++ (closeTag ++ r))).drop openPony.length
      = b ++ (closeTag ++ r) := List.drop_left _ _
  have hne : openPony ++ (b ++ (closeTag ++ r)) ≠ [] := by
    rw [openPony_chars]; simp
  rw [findBlocksF_succ hne hpre, hdrop, splitFirst_close_at hb r]

theorem findBlocksF_succ_neg {tag : Str} {f : Nat} {c : Char} {rest : Str}
    (hpre : tag.isPrefixOf (c :: rest) = false) :
    findBlocksF tag (f + 1) (c :: rest) = findBlocksF tag f rest := by
  show (if tag.isPrefixOf (c :: rest) = true
        then match splitFirst closeTag ((c :: rest).drop tag.length) with
             | some (content, after) => content :: findBlocksF tag f after
             | none => findBlocksF tag f rest
        else findBlocksF tag f rest) = findBlocksF tag f rest
  rw [if_neg (by simp [hpre])]

theorem findBlocksF_fuel (tag : Str) (htag : 1 ≤ tag.length) :
    ∀ (f g : Nat) (s : Str), s.length ≤ f → s.length ≤ g →
      findBlocksF tag f s = findBlocksF tag g s
  | f, g, [] => by intro _ _; cases f <;> cases g <;> rfl
  | 0, g, c :: rest => by intro hf _; simp at hf
  | f+1, 0, c :: rest => by intro _ hg; simp at hg
  | f+1, g+1, c :: rest => by
    intro hf hg
    by_cases hpre : tag.isPrefixOf (c :: rest) = true
    · rw [findBlocksF_succ (f := f) (by simp) hpre,
        findBlocksF_succ (f := g) (by simp) hpre]
      cases hsp : splitFirst closeTag ((c :: rest).drop tag.length) with
      | none =>
        show findBlocksF tag f (c :: rest).tail = findBlocksF tag g (c :: rest).tail
        have hr : rest.length ≤ f := by simp at hf; omega
        have hr2 : rest.length ≤ g := by simp at hg; omega
        exact findBlocksF_fuel tag htag f g rest hr hr2
      | some ba =>
        cases ba with
        | mk content after =>
          show content :: findBlocksF tag f after = content :: findBlocksF tag g after
          have hparts := splitFirst_some_parts hsp
          rcases isPrefixOf_iff_ex.mp hpre with ⟨t, ht⟩
          have hlen1 : tag.length ≤ (c :: rest).length := by
            rw [ht]; simp
          have hlen2 : ((c :: rest).drop tag.length).length
              = (c :: rest).length - tag.length := by simp
          have hlen3 : ((c :: rest).drop tag.length).length
              = content.length + closeTag.length + after.length := by
            rw [hparts]
            simp [List.length_append]
            omega
          have hclen : closeTag.length = 4 := by decide
          have hj : (c :: rest).length = rest.length + 1 := by simp
          have haf : after.length ≤ f ∧ after.length ≤ g := by
            simp only [List.length_cons] at hf hg ⊢
            omega
          rw [findBlocksF_fuel tag htag f g after haf.1 haf.2]
    · have hpre2 : tag.isPrefixOf (c :: rest) = false := by
        cases hp2 : tag.isPrefixOf (c :: rest) with
        | false => rfl
        | true => exact absurd hp2 hpre
      rw [findBlocksF_succ_neg hpre2, findBlocksF_succ_neg hpre2]
      have hr : rest.length ≤ f := by simp at hf; omega
      have hr2 : rest.length ≤ g := by simp at hg; omega
      exact findBlocksF_fuel tag htag f g rest hr hr2

/-- A response shape containing a sequence of `pony`-tagged fenced blocks:
`blocksBody [(b1, g1), (b2, g2), ...]` is
`OPEN ++ b1 ++ CLOSE ++ g1 ++ OPEN ++ b2 ++ CLOSE ++ g2 ++ ...`. -/
def blocksBody : List (Str × Str) → Str
  | [] => []
  | (b, g) :: t => openPony ++ (b ++ (closeTag ++ (g ++ blocksBody t)))

def blocksFuel : List (Str × Str) → Nat
  | [] => 0
  | (_, g) :: t => 1 + (g.length + blocksFuel t)

theorem findBlocksF_body :
    ∀ (bs : List (Str × Str)),
      (∀ pr ∈ bs, containsSub btick pr.1 = false ∧ containsSub btick pr.2 = false) →
      ∀ (p : Str) (f : Nat), containsSub btick p = false →
        findBlocksF openPony (p.length + (blocksFuel bs + f)) (p ++ blocksBody bs)
          = bs.map Prod.fst
  | [], _, p, f, hp => by
    have h0 : blocksBody [] = [] := rfl
    rw [h0]
    have := findBlocksF_skip ⟨("``pony\n").data, openPony_chars⟩ hp
      (blocksFuel [] + f) []
    rw [this]
    cases blocksFuel [] + f <;> rfl
  | (b, g) :: t, hok, p, f, hp => by
    have hb : containsSub btick b = false := (hok (b, g) (by simp)).1
    have hg : containsSub btick g = false := (hok (b, g) (by simp)).2
    have ht : ∀ pr ∈ t, containsSub btick pr.1 = false ∧ containsSub btick pr.2 = false :=
      fun pr hm => hok pr (by simp [hm])
    have hbody : blocksBody ((b, g) :: t)
        = openPony ++ (b ++ (closeTag ++ (g ++ blocksBody t))) := rfl
    rw [hbody]
    rw [findBlocksF_skip ⟨("``pony\n").data, openPony_chars⟩ hp _ _]
    have e1 : blocksFuel ((b, g) :: t) + f = (g.length + (blocksFuel t + f)) + 1 := by
      simp only [blocksFuel]; omega
    rw [e1, findBlocksF_block hb _ _, findBlocksF_body t ht g (f) hg]
    rfl

/-- Claim C5: for every response consisting of a preamble and at least two
`pony`-tagged fenced blocks (all segments outside the block contents
backtick-free, and block contents backtick-free so each block is closed by
its own fence), the extractor returns the content of the LAST tagged block,
unchanged except for trimming. -/
theorem C5_extract_last_block (p : Str) (bs : List (Str × Str))
    (hlen : 2 ≤ bs.length)
    (hok : ∀ pr ∈ bs, containsSub btick pr.1 = false ∧ containsSub btick pr.2 = false)
    (hp : containsSub btick p = false) :
    extract_code_from_response (p ++ blocksBody bs)
      = pyStrip ((bs.map Prod.fst).getLastD []) := by
  have hfuel1 : (p ++ blocksBody bs).length ≤ (p ++ blocksBody bs).length := Nat.le_refl _
  have hfuel2 : (p ++ blocksBody bs).length
      ≤ p.length + (blocksFuel bs + (p ++ blocksBody bs).length) := by
    simp only [List.length_append]
    omega
  have e1 : findBlocks openPony (p ++ blocksBody bs) = bs.map Prod.fst := by
    unfold findBlocks
    rw [findBlocksF_fuel openPony (by decide) _
      (p.length + (blocksFuel bs + (p ++ blocksBody bs).length)) _ hfuel1 hfuel2]
    exact findBlocksF_body bs hok p _ hp
  cases bs with
  | nil => simp at hlen
  | cons pr1 bs2 =>
    cases bs2 with
    | nil => simp at hlen
    | cons pr2 bs3 =>
      have e2 : (((pr1 :: pr2 :: bs3).map Prod.fst)) =
          pr1.1 :: ((pr2 :: bs3).map Prod.fst) := by simp
      unfold extract_code_from_response
      rw [e1, e2]

/-- Witness for C5 at a concrete response with two tagged blocks. -/
theorem C5_extract_last_block_witness :
    2 ≤ ([((" A ").data, ("\nmid\n").data), (("B").data, ("\ntail").data)] :
        List (Str × Str)).length ∧
    (∀ pr ∈ ([((" A ").data, ("\nmid\n").data), (("B").data, ("\ntail").data)] :
        List (Str × Str)),
      containsSub btick pr.1 = false ∧ containsSub btick pr.2 = false) ∧
    containsSub btick (("intro\n").data) = false ∧
    extract_code_from_response ((("intro\n").data)
        ++ blocksBody [((" A ").data, ("\nmid\n").data), (("B").data, ("\ntail").data)])
      = pyStrip ((([((" A ").data, ("\nmid\n").data), (("B").data, ("\ntail").data)] :
          List (Str × Str)).map Prod.fst).getLastD []) :=
  ⟨by decide, by decide, by decide,
    C5_extract_last_block (("intro\n").data)
      [((" A ").data, ("\nmid\n").data), (("B").data, ("\ntail").data)]
      (by decide) (by decide) (by decide)⟩

/-- Claim C6: for every response with no fenced code block (no triple-backtick
at all) and no language-defining keyword (`actor`, `class`, `primitive`,
`fun`) anywhere, the extractor returns the whole input trimmed. -/
theorem C6_extract_fallback (r : Str)
    (hbt : containsSub (("```").data) r = false)
    (h1 : containsSub (("actor").data) r = false)
    (h2 : containsSub (("class").data) r = false)
    (h3 : containsSub (("primitive").data) r = false)
    (h4 : containsSub (("fun").data) r = false) :
    extract_code_from_response r = pyStrip r := by
  have e1 : findBlocks openPony r = [] := findBlocksF_eq_nil (by decide) hbt _
  have e2 : findBlocks openGeneric r = [] := findBlocksF_eq_nil (by decide) hbt _
  have e3 : collectLines false (pySplitNL r) = [] := by
    apply collectLines_nil
    intro l hl k hk
    obtain ⟨x, y, hxy⟩ := pySplitNL_mem_parts hl
    fin_cases hk
    · exact not_containsSub_mono hxy h1
    · exact not_containsSub_mono hxy h2
    · exact not_containsSub_mono hxy h3
    · exact not_containsSub_mono hxy h4
  unfold extract_code_from_response
  rw [e1, e2, e3]

/-- Witness for C6 at the concrete input `"some plain text\nmore words"`. -/
theorem C6_extract_fallback_witness :
    containsSub (("```").data) (("some plain text\nmore words").data) = false ∧
    containsSub (("actor").data) (("some plain text\nmore words").data) = false ∧
    containsSub (("class").data) (("some plain text\nmore words").data) = false ∧
    containsSub (("primitive").data) (("some plain text\nmore words").data) = false ∧
    containsSub (("fun").data) (("some plain text\nmore words").data) = false ∧
    extract_code_from_response (("some plain text\nmore words").data)
      = pyStrip (("some plain text\nmore words").data) :=
  ⟨by decide, by decide, by decide, by decide, by decide,
    C6_extract_fallback (("some plain text\nmore words").data)
      (by decide) (by decide) (by decide) (by decide) (by decide)⟩

/-- Claim C9: with `max_retries = 0` the loop body never runs, no attempt is
made, the fallback `{...}` is a set literal containing `Ellipsis`, and the
item assignment `final_result['retry_count'] = ...` raises `TypeError`, so
`evaluate_task` raises instead of returning an outcome dict. -/
theorem C9_zero_retries (c : Nat → Bool) :
    evaluate_task c 0 =
      ⟨.raised (("TypeError: set object does not support item assignment").data), 0, []⟩ :=
  rfl

/-! ## Lemmas about the heuristic repairer (claim C2) -/

theorem stripU_eq_self : ∀ {s : Str}, hasDigitU s = false → stripU s = s
  | [], _ => rfl
  | [c], _ => rfl
  | c :: u :: rest2, h => by
    have h0 : (c.isDigit && (decide (u = 'U') || decide (u = 'u'))) = false ∧
        hasDigitU (u :: rest2) = false := by
      have h2 := h
      simp only [hasDigitU, Bool.or_eq_false_iff] at h2
      exact h2
    have hcond : (c.isDigit && (decide (u = 'U') || decide (u = 'u'))
        && boundaryOK rest2) = false :=
      Bool.and_eq_false_iff.mpr (Or.inl h0.1)
    show (if (c.isDigit && (decide (u = 'U') || decide (u = 'u'))
          && boundaryOK rest2) = true
          then c :: stripU rest2 else c :: stripU (u :: rest2)) = c :: u :: rest2
    rw [if_neg (by simp [hcond]), stripU_eq_self h0.2]

theorem matchPackage_none {s : Str} (h : containsSub pkgLit s = false) :
    matchPackage s = none := by
  have hnp : pkgLit.isPrefixOf s = false := by
    cases hp : pkgLit.isPrefixOf s with
    | false => rfl
    | true =>
      rcases isPrefixOf_iff_ex.mp hp with ⟨t, rfl⟩
      have hcon : containsSub pkgLit (pkgLit ++ t) = true :=
        containsSub_of_parts (l := []) (r := t) (by simp)
      rw [h] at hcon
      exact absurd hcon (by simp)
  unfold matchPackage
  rw [if_neg (by simp [hnp])]

theorem subPkgF_eq_self : ∀ (f : Nat) (b : Bool) {s : Str},
    containsSub pkgLit s = false → subPkgF f b s = s
  | 0, b, s, _ => rfl
  | _+1, b, [], _ => rfl
  | f+1, b, c :: rest, h => by
    have hm : matchPackage (c :: rest) = none := matchPackage_none h
    have ht := containsSub_tail h
    show (if b = true
          then match matchPackage (c :: rest) with
               | some r => subPkgF f true r
               | none => c :: subPkgF f (decide (c = '\n')) rest
          else c :: subPkgF f (decide (c = '\n')) rest) = c :: rest
    cases b with
    | true =>
      rw [if_pos rfl, hm, subPkgF_eq_self f _ ht]
    | false =>
      rw [if_neg (by simp), subPkgF_eq_self f _ ht]

theorem subPkg_eq_self {s : Str} (h : containsSub pkgLit s = false) : subPkg s = s :=
  subPkgF_eq_self _ _ h

theorem subValuesF_eq_self : ∀ (f : Nat) {s : Str},
    containsSub valuesLit s = false → subValuesF f s = s
  | 0, s, _ => rfl
  | _+1, [], _ => rfl
  | f+1, c :: rest, h => by
    have ht := containsSub_tail h
    by_cases hc : c = '['
    · show (if c = '[' then
            match rest.dropWhile (fun d => !(d = ']')) with
            | d :: t2 =>
              if d = ']' ∧ (rest.takeWhile (fun d2 => !(d2 = ']'))).isEmpty = false
                  ∧ valuesLit.isPrefixOf t2 = true then
                '[' :: rest.takeWhile (fun d2 => !(d2 = ']')) ++ ']' :: subValuesF f (t2.drop 9)
              else c :: subValuesF f rest
            | [] => c :: subValuesF f rest
          else c :: subValuesF f rest) = c :: rest
      rw [if_pos hc]
      cases hdw : rest.dropWhile (fun d => !(d = ']')) with
      | nil =>
        show c :: subValuesF f rest = c :: rest
        rw [subValuesF_eq_self f ht]
      | cons d t2 =>
        have hnpre : valuesLit.isPrefixOf t2 = false := by
          cases hp : valuesLit.isPrefixOf t2 with
          | false => rfl
          | true =>
            rcases isPrefixOf_iff_ex.mp hp with ⟨t3, rfl⟩
            have hrest : rest = rest.takeWhile (fun d2 => !(d2 = ']'))
                ++ (d :: (valuesLit ++ t3)) := by
              have hsplit := List.takeWhile_append_dropWhile
                (p := fun d2 => !(d2 = ']')) (l := rest)
              rw [hdw] at hsplit
              exact hsplit.symm
            have hcon : containsSub valuesLit (c :: rest) = true := by
              refine containsSub_of_parts
                (l := c :: (rest.takeWhile (fun d2 => !(d2 = ']')) ++ [d])) (r := t3) ?_
              conv_lhs => rw [hrest]
              simp
            rw [h] at hcon
            exact absurd hcon (by simp)
        show (if d = ']' ∧ (rest.takeWhile (fun d2 => !(d2 = ']'))).isEmpty = false
            ∧ valuesLit.isPrefixOf t2 = true then
            '[' :: rest.takeWhile (fun d2 => !(d2 = ']')) ++ ']' :: subValuesF f (t2.drop 9)
          else c :: subValuesF f rest) = c :: rest
        rw [if_neg (by simp [hnpre]), subValuesF_eq_self f ht]
    · show (if c = '[' then
            match rest.dropWhile (fun d => !(d = ']')) with
            | d :: t2 =>
              if d = ']' ∧ (rest.takeWhile (fun d2 => !(d2 = ']'))).isEmpty = false
                  ∧ valuesLit.isPrefixOf t2 = true then
                '[' :: rest.takeWhile (fun d2 => !(d2 = ']')) ++ ']' :: subValuesF f (t2.drop 9)
              else c :: subValuesF f rest
            | [] => c :: subValuesF f rest
          else c :: subValuesF f rest) = c :: rest
      rw [if_neg hc, subValuesF_eq_self f ht]

theorem subValues_eq_self {s : Str} (h : containsSub valuesLit s = false) :
    subValues s = s := subValuesF_eq_self _ h

theorem tryEq_none {s : Str} (h : containsSub eqLit s = false) : tryEq s = none := by
  simp only [tryEq]
  by_cases h1 : (s.takeWhile isWordChar).isEmpty = true
  · rw [if_pos h1]
  · rw [if_neg h1]
    have hsp : eqLit.isPrefixOf ((s.dropWhile isWordChar).dropWhile isPSpace) = false := by
      cases hp : eqLit.isPrefixOf ((s.dropWhile isWordChar).dropWhile isPSpace) with
      | false => rfl
      | true =>
        rcases isPrefixOf_iff_ex.mp hp with ⟨t, ht⟩
        have hs1 : s = s.takeWhile isWordChar ++ s.dropWhile isWordChar :=
          (List.takeWhile_append_dropWhile ..).symm
        have hs2 : s.dropWhile isWordChar
            = (s.dropWhile isWordChar).takeWhile isPSpace
              ++ (s.dropWhile isWordChar).dropWhile isPSpace :=
          (List.takeWhile_append_dropWhile ..).symm
        have hcon : containsSub eqLit s = true := by
          refine containsSub_of_parts
            (l := s.takeWhile isWordChar ++ (s.dropWhile isWordChar).takeWhile isPSpace)
            (r := t) ?_
          conv_lhs => rw [hs1]
          conv_lhs => rw [hs2]
          rw [ht]
          simp
        rw [h] at hcon
        exact absurd hcon (by simp)
    rw [if_neg (by simp [hsp])]

theorem tryCmp_none {s : Str} (h : containsSub eqLit s = false) : tryCmp s = none := by
  unfold tryCmp
  rw [tryEq_none h]

theorem subCmpF_eq_self : ∀ (f : Nat) (b : Bool) {s : Str},
    containsSub eqLit s = false → subCmpF f b s = s
  | 0, b, s, _ => rfl
  | _+1, b, [], _ => rfl
  | f+1, b, c :: rest, h => by
    have ht := containsSub_tail h
    show (if (b && isWordChar c) = true
          then match tryCmp (c :: rest) with
               | some (repl, r) => repl ++ subCmpF f false r
               | none => c :: subCmpF f (!(isWordChar c)) rest
          else c :: subCmpF f (!(isWordChar c)) rest) = c :: rest
    by_cases hb : (b && isWordChar c) = true
    · rw [if_pos hb, tryCmp_none h, subCmpF_eq_self f _ ht]
    · rw [if_neg hb, subCmpF_eq_self f _ ht]

theorem subCmp_eq_self {s : Str} (h : containsSub eqLit s = false) : subCmp s = s :=
  subCmpF_eq_self _ _ h

theorem findThen_some_contains : ∀ {pw : Bool} {s r : Str},
    findThen pw s = some r → containsSub thenLit s = true := by
  intro pw s
  induction s generalizing pw with
  | nil => intro r hr; exact absurd hr (by simp [findThen])
  | cons c rest ih =>
    intro r hr
    by_cases hc : c = '\n'
    · rw [show findThen pw (c :: rest) = none by simp [findThen, hc]] at hr
      exact absurd hr (by simp)
    · have hstep : findThen pw (c :: rest)
          = match findThen (isWordChar c) rest with
            | some r2 => some r2
            | none =>
              if (!pw && thenLit.isPrefixOf (c :: rest)
                  && boundaryOK ((c :: rest).drop 4)) = true then
                some ((c :: rest).drop 4)
              else none := by
        show (if c = '\n' then none else
              match findThen (isWordChar c) rest with
              | some r2 => some r2
              | none =>
                if (!pw && thenLit.isPrefixOf (c :: rest)
                    && boundaryOK ((c :: rest).drop 4)) = true then
                  some ((c :: rest).drop 4)
                else none) = _
        rw [if_neg hc]
      rw [hstep] at hr
      cases hin : findThen (isWordChar c) rest with
      | some r2 =>
        have := ih hin
        simp only [containsSub, this, Bool.or_true]
      | none =>
        rw [hin] at hr
        by_cases hcond : (!pw && thenLit.isPrefixOf (c :: rest)
            && boundaryOK ((c :: rest).drop 4)) = true
        · have hpre : thenLit.isPrefixOf (c :: rest) = true := by
            have h1 := Bool.and_eq_true_iff.mp hcond
            exact (Bool.and_eq_true_iff.mp h1.1).2
          simp only [containsSub, hpre, Bool.true_or]
        · rw [if_neg hcond] at hr
          exact absurd hr (by simp)

theorem countIfF_zero : ∀ (f : Nat) (b : Bool) {s : Str},
    containsSub thenLit s = false → countIfF f b s = 0
  | 0, b, s, _ => rfl
  | _+1, b, [], _ => rfl
  | f+1, b, c :: rest, h => by
    have ht := containsSub_tail h
    show (if (b && ifLit.isPrefixOf (c :: rest)
          && boundaryOK ((c :: rest).drop 2)) = true
          then match findThen true ((c :: rest).drop 2) with
               | some r => 1 + countIfF f false r
               | none => countIfF f (!(isWordChar c)) rest
          else countIfF f (!(isWordChar c)) rest) = 0
    by_cases hcond : (b && ifLit.isPrefixOf (c :: rest)
        && boundaryOK ((c :: rest).drop 2)) = true
    · rw [if_pos hcond]
      cases hft : findThen true ((c :: rest).drop 2) with
      | some r =>
        have hcon := findThen_some_contains hft
        have hdropmono : containsSub thenLit ((c :: rest).drop 2) = false := by
          refine not_containsSub_mono (l := (c :: rest).take 2)
            (m := (c :: rest).drop 2) (r := []) ?_ h
          rw [List.append_nil, List.take_append_drop]
        rw [hdropmono] at hcon
        exact absurd hcon (by simp)
      | none => exact countIfF_zero f _ ht
    · rw [if_neg hcond]
      exact countIfF_zero f _ ht

theorem balanceEnds_eq_self {s : Str} (h : countIfThen s = 0) : balanceEnds s = s := by
  unfold balanceEnds
  rw [h]
  simp

theorem clean_eq_pyStrip {s : Str}
    (h1 : hasDigitU s = false)
    (h2 : containsSub pkgLit s = false)
    (h3 : containsSub valuesLit s = false)
    (h4 : containsSub eqLit s = false)
    (h5 : containsSub thenLit s = false) :
    clean_pony_code s = pyStrip s := by
  unfold clean_pony_code
  rw [stripU_eq_self h1, subPkg_eq_self h2, subValues_eq_self h3, subCmp_eq_self h4,
    balanceEnds_eq_self (countIfF_zero _ _ h5)]

theorem hasDigitU_iff : ∀ {s : Str}, hasDigitU s = true ↔
    ∃ (l r : Str) (d u : Char), s = l ++ d :: u :: r ∧ d.isDigit = true ∧ (u = 'U' ∨ u = 'u')
  | [] => by
    simp only [hasDigitU]
    constructor
    · intro hcontra; exact absurd hcontra (by simp)
    · rintro ⟨l, r, d, u, hcontra, -, -⟩
      have := congrArg List.length hcontra
      simp at this
      omega
  | [a] => by
    simp only [hasDigitU]
    constructor
    · intro hcontra; exact absurd hcontra (by simp)
    · rintro ⟨l, r, d, u, hcontra, -, -⟩
      have := congrArg List.length hcontra
      simp at this
      omega
  | a :: b :: rest => by
    simp only [hasDigitU, Bool.or_eq_true]
    constructor
    · rintro (hhd | htl)
      · refine ⟨[], rest, a, b, by simp, ?_, ?_⟩
        · exact (Bool.and_eq_true_iff.mp hhd).1
        · simpa using (Bool.and_eq_true_iff.mp hhd).2
      · obtain ⟨l, r, d, u, hs, hd, hu⟩ := hasDigitU_iff.mp htl
        exact ⟨a :: l, r, d, u, by rw [List.cons_append, ← hs], hd, hu⟩
    · rintro ⟨l, r, d, u, hs, hd, hu⟩
      cases l with
      | nil =>
        left
        simp only [List.nil_append, List.cons.injEq] at hs
        obtain ⟨rfl, rfl, -⟩ := hs
        rw [Bool.and_eq_true_iff]
        refine ⟨hd, ?_⟩
        rcases hu with rfl | rfl
        · simp
        · simp
      | cons x l2 =>
        right
        simp only [List.cons_append, List.cons.injEq] at hs
        exact hasDigitU_iff.mpr ⟨l2, r, d, u, hs.2, hd, hu⟩

theorem hasDigitU_mono {s l m r : Str} (hs : s = l ++ m ++ r)
    (h : hasDigitU s = false) : hasDigitU m = false := by
  cases hm : hasDigitU m with
  | false => rfl
  | true =>
    obtain ⟨l2, r2, d, u, hm2, hd, hu⟩ := hasDigitU_iff.mp hm
    have hall : hasDigitU s = true := by
      refine hasDigitU_iff.mpr ⟨l ++ l2, r2 ++ r, d, u, ?_, hd, hu⟩
      rw [hs, hm2]
      simp
    rw [h] at hall
    exact absurd hall (by simp)

/-- Counterexample to claim C2 as stated: `clean_pony_code` is NOT idempotent.
On `"  package foo\nbar"` the first application only trims (the indented
package line does not match the line-anchored package pattern), producing
`"package foo\nbar"`; the second application then removes the now
line-anchored package declaration, producing `"bar"`. -/
theorem C2_repairer_cex :
    clean_pony_code (clean_pony_code (("  package foo\nbar").data))
      ≠ clean_pony_code (("  package foo\nbar").data) := by decide

/-- Claim C2 (amended): `clean_pony_code` is idempotent on every input that
contains none of the substitution triggers — no digit directly followed by
`U`/`u`, no `package`, no `.values()`, no `==`, and no `then`.  On such
inputs one application reduces to `str.strip()`, which is idempotent.  (In
general a second application can change the result again: a package line
exposed by the final trim, or a chained `.values()` call whose second
occurrence was skipped by non-overlapping matching, is rewritten only by the
second application.) -/
theorem C2_repairer_amended (s : Str)
    (h1 : hasDigitU s = false)
    (h2 : containsSub pkgLit s = false)
    (h3 : containsSub valuesLit s = false)
    (h4 : containsSub eqLit s = false)
    (h5 : containsSub thenLit s = false) :
    clean_pony_code (clean_pony_code s) = clean_pony_code s := by
  obtain ⟨lp, rp, hparts⟩ := pyStrip_parts s
  have h1s : hasDigitU (pyStrip s) = false := hasDigitU_mono hparts h1
  have h2s : containsSub pkgLit (pyStrip s) = false := not_containsSub_mono hparts h2
  have h3s : containsSub valuesLit (pyStrip s) = false := not_containsSub_mono hparts h3
  have h4s : containsSub eqLit (pyStrip s) = false := not_containsSub_mono hparts h4
  have h5s : containsSub thenLit (pyStrip s) = false := not_containsSub_mono hparts h5
  rw [clean_eq_pyStrip h1 h2 h3 h4 h5, clean_eq_pyStrip h1s h2s h3s h4s h5s,
    pyStrip_idem]

/-- Witness for the amended C2 at the concrete input `"hello world"`. -/
theorem C2_repairer_amended_witness :
    hasDigitU (("hello world").data) = false ∧
    containsSub pkgLit (("hello world").data) = false ∧
    containsSub valuesLit (("hello world").data) = false ∧
    containsSub eqLit (("hello world").data) = false ∧
    containsSub thenLit (("hello world").data) = false ∧
    clean_pony_code (clean_pony_code (("hello world").data))
      = clean_pony_code (("hello world").data) :=
  ⟨by decide, by decide, by decide, by decide, by decide,
    C2_repairer_amended (("hello world").data)
      (by decide) (by decide) (by decide) (by decide) (by decide)⟩

end PonyEval
